import Mathlib

/-!
# Verification of the yatadis Terraform-state → Ansible-inventory pipeline

Shallow embedding of the two implementations shipped in the repository:

* `src/yatadis/yatadis.py` (the package module): the flatmap expansion
  algorithm (`flatmap_expand`, `flatmap_expand_array`, `flatmap_expand_dict`),
  the `Resource` enrichment class, `merge_hosts`, `list_groups`, and the
  host-vars / groups parsing inside `process_item_with_templates`;
* `src/yatadis.py` (the original flat script): the per-resource processing
  loop of `process_tfstate`.

Python dicts are modelled as association lists (first occurrence wins on
lookup; Python dicts have unique keys and preserve insertion order).
Python strings are Lean `String`s and every string primitive used by the
source (slicing, `startswith`, `find`, `strip`, `split`) is modelled at the
character-list level.  Exceptions (`ValueError` from `int()`, `sys.exit`,
`raise ValueError`) are modelled with `Except`.  Jinja2 template rendering
and `ast.literal_eval` are external collaborators: the embedding receives
already-rendered text and records the text handed to `literal_eval`.
-/

set_option autoImplicit false

/-- Python whitespace for `str.strip` and the `\s` regex class
(ASCII range, which is all that arises here). -/
def isPySpace (c : Char) : Bool :=
  c == ' ' || c == '\t' || c == '\n' || c == '\r' || c == '\x0b' || c == '\x0c'

/-- Python `s.strip()`: drop leading and trailing whitespace. -/
def pyStrip (s : String) : String :=
  String.mk (((s.data.dropWhile isPySpace).reverse.dropWhile isPySpace).reverse)

/-- Python `x in l` for a list of strings. -/
def containsStr : List String → String → Bool
  | [], _ => false
  | x :: xs, g => (x == g) || containsStr xs g

/-- Number of occurrences of a string in a list. -/
def countStr (g : String) : List String → Nat
  | [] => 0
  | x :: xs => (if x == g then 1 else 0) + countStr g xs

/-- Worker for `dedupFirst`: keep elements not seen before, in order. -/
def dedupFirstGo (seen : List String) : List String → List String
  | [] => []
  | x :: xs =>
    if containsStr seen x then dedupFirstGo seen xs
    else x :: dedupFirstGo (seen ++ [x]) xs

/-- Distinct elements of a list, keeping the first occurrence of each
(the order in which Python's dict-based iteration discovers them). -/
def dedupFirst (l : List String) : List String := dedupFirstGo [] l

/-- Python string slice `s[n:]` (indices are characters). -/
def strDrop (s : String) (n : Nat) : String := String.mk (s.data.drop n)

/-- Python string slice `s[:n]`. -/
def strTake (s : String) (n : Nat) : String := String.mk (s.data.take n)

/-- Python `len(s)`. -/
def strLen (s : String) : Nat := s.data.length

/-- Python `k.startswith(p)`. -/
def pyStartsWith (k p : String) : Bool := List.isPrefixOf p.data k.data

/-- The idiom `idx = key.find('.'); key = key[:idx] if idx != -1 else key`
used by `flatmap_expand_array` / `flatmap_expand_dict`: the part of the
string before its first dot. -/
def segBeforeDot (s : String) : String :=
  String.mk (s.data.takeWhile (fun c => c != '.'))

/-- One decimal digit. -/
def digitVal (c : Char) : Option Nat :=
  if c.isDigit then some (c.toNat - '0'.toNat) else Option.none

/-- Accumulating decimal parser over characters; fails on a non-digit. -/
def digitsToNatGo (acc : Nat) : List Char → Option Nat
  | [] => some acc
  | c :: rest =>
    match digitVal c with
    | some d => digitsToNatGo (10 * acc + d) rest
    | Option.none => Option.none

/-- Python `int(s)` on the decimal strings that occur in a flat attribute
map: surrounding whitespace is stripped, an optional minus sign is
accepted, and anything that is not a non-empty digit string fails
(raising `ValueError` in Python, `Option.none` here).  Python's further
liberties (a leading `+`, underscore separators) are never exercised by
the source and are not modelled. -/
def pyInt (s : String) : Option Int :=
  match (pyStrip s).data with
  | [] => Option.none
  | '-' :: rest =>
    if rest.isEmpty then Option.none
    else (digitsToNatGo 0 rest).map (fun n => -(n : Int))
  | cs => (digitsToNatGo 0 cs).map (fun n => (n : Int))

/-- Insert into a sorted list of integers. -/
def insSorted (x : Int) : List Int → List Int
  | [] => [x]
  | y :: ys => if x ≤ y then x :: y :: ys else y :: insSorted x ys

/-- Python `keys_list.sort()`: ascending numeric sort (insertion sort). -/
def sortInts (l : List Int) : List Int := l.foldr insSorted []

/-- Boolean check that a list of integers is ascending. -/
def sortedLe : List Int → Bool
  | [] => true
  | [_] => true
  | x :: y :: r => decide (x ≤ y) && sortedLe (y :: r)

/-! ## The flat attribute map and its expansion
(`flatmap_expand` and friends, src/yatadis/yatadis.py lines 306-376). -/

/-- A flat attribute map: Python `dict` from dotted string key to string
value, modelled as an insertion-ordered association list with unique keys. -/
def FlatMap : Type := List (String × String)

/-- Python dict lookup `flatmap[key]` / `key in flatmap.keys()`. -/
def lookupStr : FlatMap → String → Option String
  | [], _ => Option.none
  | (k, v) :: rest, key => if k == key then some v else lookupStr rest key

/-- Python `flatmap.keys()`, in insertion order. -/
def keysList (m : FlatMap) : List String := m.map Prod.fst

/-- Exceptions escaping the expansion: `ValueError` from `int()`, a
`KeyError` from indexing (never actually reachable), and exhaustion of the
recursion-depth budget (Python's `RecursionError`; never reached for the
budget chosen by `flatmap_expand` below). -/
inductive PyErr where
  | valueError
  | keyError
  | outOfFuel
deriving DecidableEq

/-- A Python value produced by `flatmap_expand`: `None`, a boolean, a
string, a list, or a dict (insertion-ordered). -/
inductive TValue where
  | null
  | bool (b : Bool)
  | str (s : String)
  | list (xs : List TValue)
  | map (kvs : List (String × TValue))

/-- The element-collection loop of `flatmap_expand_array` (lines 329-343):
walk the map's keys, keep those starting with `pfx + "."`, take the first
path segment, skip the literal `"#"` segment, convert to `int` (raising
`ValueError` on failure) and accumulate the distinct integers.  The
source accumulates into a `set`; since the list is sorted afterwards only
the set of elements matters, and we keep first-encounter order. -/
def collectIdxGo (pfx : String) : List String → List Int → Except PyErr (List Int)
  | [], acc => .ok acc
  | k :: rest, acc =>
    if pyStartsWith k (pfx ++ ".") then
      let seg := segBeforeDot (strDrop k (strLen pfx + 1))
      if seg == "#" then collectIdxGo pfx rest acc
      else
        match pyInt seg with
        | Option.none => .error .valueError
        | some i => collectIdxGo pfx rest (if acc.contains i then acc else acc ++ [i])
    else collectIdxGo pfx rest acc

/-- The result-building loop of `flatmap_expand_array` (lines 351-354):
`result.append(flatmap_expand(flatmap, "%s.%d" % (prefix, key)))` for each
sorted index.  `rec` stands for the recursive call to `flatmap_expand`. -/
def expandEachWith (rec : FlatMap → String → Except PyErr TValue) (m : FlatMap)
    (pfx : String) : List Int → Except PyErr (List TValue)
  | [] => .ok []
  | i :: rest =>
    match rec m (pfx ++ "." ++ toString i) with
    | .error e => .error e
    | .ok v =>
      match expandEachWith rec m pfx rest with
      | .error e => .error e
      | .ok vs => .ok (v :: vs)

/-- `flatmap_expand_array(flatmap, prefix)` (lines 327-356), with `rec`
standing for the recursive `flatmap_expand`.  `num = int(flatmap[prefix+'.#'])`
is computed (and can raise `ValueError`) but its value is never used. -/
def flatmap_expand_array (rec : FlatMap → String → Except PyErr TValue)
    (m : FlatMap) (pfx : String) : Except PyErr TValue :=
  match lookupStr m (pfx ++ ".#") with
  | Option.none => .error .keyError
  | some numStr =>
    match pyInt numStr with
    | Option.none => .error .valueError
    | some _num =>
      match collectIdxGo pfx (keysList m) [] with
      | .error e => .error e
      | .ok idxs =>
        match expandEachWith rec m pfx (sortInts idxs) with
        | .error e => .error e
        | .ok vs => .ok (.list vs)

/-- The loop body of `flatmap_expand_dict` (lines 358-376), with `rec`
standing for the recursive `flatmap_expand` and `acc` for the `result`
dict built so far: for each map key starting with `pfx`, the next path
segment is the candidate sub-key; a sub-key already present in `result`
is skipped (first occurrence wins), the reserved `"%"` segment is
skipped, and otherwise `result[key] = flatmap_expand(flatmap,
k[:len(prefix)+len(key)])`. -/
def expandDictGo (rec : FlatMap → String → Except PyErr TValue) (m : FlatMap)
    (pfx : String) : List String → List (String × TValue) → Except PyErr (List (String × TValue))
  | [], acc => .ok acc
  | k :: rest, acc =>
    if pyStartsWith k pfx then
      let s := segBeforeDot (strDrop k (strLen pfx))
      if containsStr (acc.map Prod.fst) s then expandDictGo rec m pfx rest acc
      else if s == "%" then expandDictGo rec m pfx rest acc
      else
        match rec m (strTake k (strLen pfx + strLen s)) with
        | .error e => .error e
        | .ok v => expandDictGo rec m pfx rest (acc ++ [(s, v)])
    else expandDictGo rec m pfx rest acc

/-- `flatmap_expand_dict(flatmap, prefix)` (lines 358-376). -/
def flatmap_expand_dict (rec : FlatMap → String → Except PyErr TValue)
    (m : FlatMap) (pfx : String) : Except PyErr TValue :=
  match expandDictGo rec m pfx (keysList m) [] with
  | .error e => .error e
  | .ok kvs => .ok (.map kvs)

/-- `flatmap_expand(flatmap, key)` (lines 308-325), indexed by a
recursion-depth budget (each nested `flatmap_expand` call consumes one
unit; every nested call strictly lengthens the key, so
`maxKeyLen + 2` units suffice — see `flatmap_expand` below):
1. direct scalar if `key` is in the map (`"true"`/`"false"` become
   booleans, anything else stays a string);
2. else the array case if `key + ".#"` is in the map;
3. else the dict case if some map key starts with `key + "."`;
4. else Python `None`. -/
def flatmap_expandF : Nat → FlatMap → String → Except PyErr TValue
  | 0, _, _ => .error .outOfFuel
  | fuel + 1, m, key =>
    match lookupStr m key with
    | some v =>
      .ok (if v == "true" then .bool true else if v == "false" then .bool false else .str v)
    | Option.none =>
      if containsStr (keysList m) (key ++ ".#") then
        flatmap_expand_array (fun m' k' => flatmap_expandF fuel m' k') m key
      else if (keysList m).any (fun k => pyStartsWith k (key ++ ".")) then
        flatmap_expand_dict (fun m' k' => flatmap_expandF fuel m' k') m (key ++ ".")
      else .ok .null

/-- Length of the longest key in the map. -/
def maxKeyLen (m : FlatMap) : Nat :=
  (keysList m).foldr (fun k acc => max (strLen k) acc) 0

/-- `flatmap_expand(flatmap, key)`: the recursion-depth budget
`maxKeyLen m + 2` is always sufficient, because a call recurses only when
its key is strictly shorter than some map key and every nested call
strictly lengthens the key. -/
def flatmap_expand (m : FlatMap) (key : String) : Except PyErr TValue :=
  flatmap_expandF (maxKeyLen m + 2) m key

/-! ## Record enrichment (`class Resource`, src/yatadis/yatadis.py lines 378-388)

`Resource(dict)` copies the raw entry's top-level key/value pairs into
itself (a *shallow* copy: `self['primary']` and `resource_dict['primary']`
are the same dict object), adds `self['name']`, and then executes
`self['primary']['expanded_attributes'] = {...}` — which therefore also
mutates the `primary` dict of the raw entry.  The embedding makes the
aliasing explicit by returning, next to the constructed resource, the
post-call state of the raw entry. -/

/-- The `primary` sub-dict of a resource entry: its flat `attributes` map
and the `expanded_attributes` key (absent on a raw entry, inserted by
`Resource._expand_primary_attributes`). -/
structure Primary where
  attributes : FlatMap
  expanded_attributes : Option (List (String × TValue))

/-- A raw resource/output entry as found in the tfstate document. -/
structure RawEntry where
  primary : Primary

/-- The constructed `Resource` object (the fields the embedding tracks:
the added `name` key and the shared `primary` dict). -/
structure ResourceObj where
  name : String
  primary : Primary

/-- `set([attr.split('.')[0] for attr in attributes.keys()])`: the distinct
top-level path segments of the attribute keys (the `set` is unordered in
Python; first-encounter order here — the result feeds a dict, so order is
irrelevant). -/
def topLevelSegs (m : FlatMap) : List String :=
  dedupFirst ((keysList m).map segBeforeDot)

/-- The loop of `_expand_primary_attributes`:
`expanded_attributes[prefix] = flatmap_expand(attributes, prefix)` once per
distinct top-level segment.  An exception from `flatmap_expand` propagates. -/
def expandAllGo (m : FlatMap) : List String → Except PyErr (List (String × TValue))
  | [] => .ok []
  | p :: rest =>
    match flatmap_expand m p with
    | .error e => .error e
    | .ok v =>
      match expandAllGo m rest with
      | .error e => .error e
      | .ok kvs => .ok ((p, v) :: kvs)

/-- The full `expanded_attributes` dict built by `_expand_primary_attributes`. -/
def expandAll (m : FlatMap) : Except PyErr (List (String × TValue)) :=
  expandAllGo m (topLevelSegs m)

/-- `Resource(resource_name, resource_dict)` — returns the constructed
object *and* the post-call state of the raw entry: because of the shallow
copy, the assignment to `self['primary']['expanded_attributes']` is
visible through `resource_dict['primary']` as well. -/
def Resource_init (resource_name : String) (entry : RawEntry) :
    Except PyErr (ResourceObj × RawEntry) :=
  match expandAll entry.primary.attributes with
  | .error e => .error e
  | .ok exp =>
    let primary' : Primary :=
      { attributes := entry.primary.attributes, expanded_attributes := some exp }
    .ok ({ name := resource_name, primary := primary' }, { primary := primary' })

/-! ## Splitting of rendered template text -/

/-- `re.split('\s*\n\s*', text)` (src/yatadis/yatadis.py lines 201 and 212):
a separator match is a maximal whitespace run containing at least one
newline; whitespace runs without a newline stay inside the surrounding
token, tokens are not trimmed further, and a leading/trailing separator
produces an empty token.  `tok` and `ws` accumulate (reversed) the current
token and the current pending whitespace run. -/
def splitWsNlGo : List Char → List Char → List Char → List String
  | [], tok, ws =>
    if ws.contains '\n' then [String.mk tok.reverse, ""]
    else [String.mk (ws ++ tok).reverse]
  | c :: rest, tok, ws =>
    if isPySpace c then splitWsNlGo rest tok (c :: ws)
    else if ws.contains '\n' then String.mk tok.reverse :: splitWsNlGo rest [c] []
    else splitWsNlGo rest (c :: (ws ++ tok)) []

/-- `re.split('\s*\n\s*', text)`. -/
def splitWsNl (s : String) : List String := splitWsNlGo s.data [] []

/-- `re.split(',\s*', text)` (src/yatadis.py lines 70 and 78): split at
every comma, greedily consuming the whitespace that follows it; `skipping`
records whether we are inside the `\s*` tail of a separator. -/
def splitCommaWsGo : List Char → List Char → Bool → List String
  | [], tok, _ => [String.mk tok.reverse]
  | c :: rest, tok, skipping =>
    if skipping && isPySpace c then splitCommaWsGo rest tok true
    else if c == ',' then String.mk tok.reverse :: splitCommaWsGo rest [] true
    else splitCommaWsGo rest (c :: tok) false

/-- `re.split(',\s*', text)`. -/
def splitCommaWs (s : String) : List String := splitCommaWsGo s.data [] false

/-! ## Group assignment (identical loop in both implementations:
src/yatadis/yatadis.py lines 205-210, src/yatadis.py lines 72-77) -/

/-- One iteration of the group loop: create the group (with an empty host
list) if absent — appended at the end, matching dict insertion order —
then append the inventory name to its host list.  A group's value is the
dict `{'hosts': [...]}`; since `'hosts'` is the only key these loops ever
create, the embedding stores the host list directly. -/
def addToGroup (groups : List (String × List String)) (g inv : String) :
    List (String × List String) :=
  if containsStr (groups.map Prod.fst) g then
    groups.map (fun q => if q.1 == g then (q.1, q.2 ++ [inv]) else q)
  else groups ++ [(g, [inv])]

/-- The whole group loop over the split group names. -/
def foldGroups (names : List String) (inv : String)
    (groups : List (String × List String)) : List (String × List String) :=
  names.foldl (fun gs g => addToGroup gs g inv) groups

/-! ## Host-vars line parsing of the package module
(src/yatadis/yatadis.py lines 216-231) -/

/-- A host-variable value: either a plain string, or the result of
`ast.literal_eval` on the recorded source text.  `literal_eval` is Python
stdlib — an external collaborator — so the embedding records the text
handed to it rather than re-implementing the Python literal grammar. -/
inductive HostVal where
  | str (s : String)
  | literal (src : String)
deriving DecidableEq

/-- Python `key_value.split('=', 1)` — split at the first `'='` only;
`acc` holds the (reversed) characters before it. -/
def splitFirstEqGo : List Char → List Char → String × Option String
  | [], acc => (String.mk acc.reverse, Option.none)
  | c :: rest, acc =>
    if c == '=' then (String.mk acc.reverse, some (String.mk rest))
    else splitFirstEqGo rest (c :: acc)

/-- Python `s.split('=', 1)`. -/
def splitFirstEq (s : String) : String × Option String := splitFirstEqGo s.data []

/-- The body of the host-vars loop for one split item (lines 217-231):
strip; skip the item if blank (`Option.none`); split on the first `'='`;
the left side stripped is the key; with no `'='` print a warning (the
returned `Bool`) and use the empty string as value; otherwise strip the
right side, handing it to `ast.literal_eval` when it starts with `'['` or
`'\x7b'` and storing it verbatim otherwise. -/
def processHostVarLine (line : String) : Option (String × HostVal × Bool) :=
  let kv := pyStrip line
  if kv == "" then Option.none
  else
    match splitFirstEq kv with
    | (k, Option.none) => some (pyStrip k, HostVal.str "", true)
    | (k, some rhs) =>
      let v := pyStrip rhs
      if pyStartsWith v "[" then some (pyStrip k, HostVal.literal v, false)
      else if pyStartsWith v "\x7b" then some (pyStrip k, HostVal.literal v, false)
      else some (pyStrip k, HostVal.str v, false)

/-! ## The per-resource pipeline of the original script
(src/yatadis.py, `process_tfstate` lines 56-92).

The four Jinja2 templates are external collaborators; the embedding starts
from their already-rendered text for one record. -/

/-- Fatal conditions of the pipeline, each carrying the data the source
interpolates into its diagnostic message. -/
inductive RunError where
  | filterContract (rendered : String)
  | duplicateName (name : String)
  | pyValueError
deriving DecidableEq

/-- The rendered text of the four templates for one record. -/
structure RenderedItem where
  filter_value : String
  inventory_name : String
  groups_text : String
  host_vars_text : String

/-- Python dict assignment `d[k] = v`: replace the value in place if the
key exists, otherwise append the pair. -/
def dictSet {β : Type} (d : List (String × β)) (k : String) (v : β) :
    List (String × β) :=
  if containsStr (d.map Prod.fst) k then
    d.map (fun q => if q.1 == k then (q.1, v) else q)
  else d ++ [(k, v)]

/-- The host-vars loop of the original script (lines 80-88): strip each
comma-split item, skip blanks, and `key, value = key_value.split('=')` —
which raises `ValueError` unless the item contains exactly one `'='` —
then store the stripped pair. -/
def buildHostVarsOldGo (acc : List (String × String)) :
    List String → Except RunError (List (String × String))
  | [] => .ok acc
  | item :: rest =>
    let t := pyStrip item
    if t == "" then buildHostVarsOldGo acc rest
    else
      match (pyStrip item).data.splitOn '=' with
      | [k, v] =>
        buildHostVarsOldGo (dictSet acc (pyStrip (String.mk k)) (pyStrip (String.mk v))) rest
      | _ => .error .pyValueError

/-- The host-vars dict for one record in the original script. -/
def buildHostVarsOld (items : List String) : Except RunError (List (String × String)) :=
  buildHostVarsOldGo [] items

/-- The accumulated inventory state of one `process_tfstate` run. -/
structure InvState where
  groups : List (String × List String)
  hosts : List (String × List (String × String))

/-- Lines 68-92 of src/yatadis.py — what happens to a record once its
filter rendered `"True"`: the comma-split group names are appended in
order, the host-vars dict is built, and registering an inventory name
that already exists in `hosts` is the fatal duplicate condition
(`sys.exit` naming the duplicate). -/
def processIncluded (r : RenderedItem) (st : InvState) : Except RunError InvState :=
  let groups' := foldGroups (splitCommaWs r.groups_text) r.inventory_name st.groups
  match buildHostVarsOld (splitCommaWs r.host_vars_text) with
  | .error e => .error e
  | .ok hv =>
    if containsStr (st.hosts.map Prod.fst) r.inventory_name then
      .error (.duplicateName r.inventory_name)
    else .ok { groups := groups', hosts := st.hosts ++ [(r.inventory_name, hv)] }

/-- Lines 63-92 of src/yatadis.py, one iteration of the resource loop:
render the filter; `"False"` means `continue` (the accumulated state is
left untouched — an empty partial result); any value other than `"True"`
raises `ValueError` (a fatal configuration error); `"True"` proceeds with
the record. -/
def processResource (r : RenderedItem) (st : InvState) : Except RunError InvState :=
  if r.filter_value == "False" then .ok st
  else if r.filter_value != "True" then .error (.filterContract r.filter_value)
  else processIncluded r st

/-! ## `merge_hosts` (src/yatadis/yatadis.py lines 239-247) -/

/-- The inner loop of `merge_hosts`: insert each `(inventory_name, host_vars)`
pair of one partial result, aborting (`sys.exit` naming the duplicate) when
the name is already registered. -/
def mergePartial {α : Type} (hosts : List (String × α)) :
    List (String × α) → Except RunError (List (String × α))
  | [] => .ok hosts
  | (n, hv) :: rest =>
    if containsStr (hosts.map Prod.fst) n then .error (.duplicateName n)
    else mergePartial (hosts ++ [(n, hv)]) rest

/-- The outer loop of `merge_hosts` over the list of partial host dicts. -/
def merge_hosts_from {α : Type} (hosts : List (String × α)) :
    List (List (String × α)) → Except RunError (List (String × α))
  | [] => .ok hosts
  | hm :: rest =>
    match mergePartial hosts hm with
    | .error e => .error e
    | .ok hosts' => merge_hosts_from hosts' rest

/-- `merge_hosts(*hosts_list)`. -/
def merge_hosts {α : Type} (l : List (List (String × α))) :
    Except RunError (List (String × α)) :=
  merge_hosts_from [] l

/-! ## `list_groups` (identical in both implementations:
src/yatadis/yatadis.py lines 265-269, src/yatadis.py lines 98-102) -/

/-- A value of the groups dict once `list_groups` has run: either a
regular group (`{'hosts': [...]}`) or the synthetic `_meta` entry
(`{'hostvars': {...}}`). -/
inductive GroupEntry (α : Type) where
  | group (hosts : List String)
  | meta (hostvars : List (String × α))

/-- The `{groups, hosts}` structure returned by `process_tfstate`. -/
structure TfStateData (α : Type) where
  groups : List (String × GroupEntry α)
  hosts : List (String × α)

/-- `list_groups(tf_state_data)`: `list_with_meta` *is* the groups dict
(no copy), so `list_with_meta['_meta'] = meta` writes into the accumulated
groups mapping — replacing the value in place if a group named `"_meta"`
exists.  The embedding returns the output dict together with the
post-call state of `tf_state_data`, which aliases it. -/
def list_groups {α : Type} (st : TfStateData α) :
    List (String × GroupEntry α) × TfStateData α :=
  let meta : GroupEntry α := .meta st.hosts
  let out := dictSet st.groups "_meta" meta
  (out, { groups := out, hosts := st.hosts })

/-! ## Specification-side definitions

These follow the words of the specification / claims (not the source) and
are compared with the source-derived definitions above. -/

/-- Spec wording of host-vars line handling (§4.3 step 4): split on the
first `'='` only, left side trimmed is the key; no `'='` → warning and
empty-string value; otherwise the trimmed right side is handed to the
literal parser when it begins with `'['` or `'\x7b'`, else kept verbatim. -/
def hostVarLineSpec (line : String) : Option (String × HostVal × Bool) :=
  let t := pyStrip line
  if t == "" then Option.none
  else if t.data.contains '=' then
    let k := pyStrip (String.mk (t.data.takeWhile (fun c => c != '=')))
    let rhs := pyStrip (String.mk ((t.data.dropWhile (fun c => c != '=')).tail))
    if rhs.data.head? = some '[' ∨ rhs.data.head? = some '\x7b' then
      some (k, HostVal.literal rhs, false)
    else some (k, HostVal.str rhs, false)
  else some (pyStrip t, HostVal.str "", true)

/-- The sub-keys discovered by the dict case of the expansion, in first
occurrence order: for every map key starting with `pfx`, the next path
segment, excluding segments already seen and the reserved `"%"`. -/
def dictSegsGo (pfx : String) (seen : List String) : List String → List String
  | [] => []
  | k :: rest =>
    if pyStartsWith k pfx then
      let s := segBeforeDot (strDrop k (strLen pfx))
      if containsStr seen s then dictSegsGo pfx seen rest
      else if s == "%" then dictSegsGo pfx seen rest
      else s :: dictSegsGo pfx (seen ++ [s]) rest
    else dictSegsGo pfx seen rest

/-- The distinct sub-keys of the dict case for a whole map. -/
def dictSegs (m : FlatMap) (pfx : String) : List String :=
  dictSegsGo pfx [] (keysList m)

/-- The final groups mapping predicted for a list of group names processed
from an empty accumulator: one entry per distinct name in first-occurrence
order, holding one copy of the inventory name per occurrence. -/
def groupsShape (names : List String) (inv : String) : List (String × List String) :=
  (dedupFirst names).map (fun g => (g, List.replicate (countStr g names) inv))

/-- The first name in a sequence that repeats an earlier one (the name
`merge_hosts` aborts on), if any. -/
def firstRepeat (seen : List String) : List String → Option String
  | [] => Option.none
  | k :: rest => if containsStr seen k then some k else firstRepeat (seen ++ [k]) rest

/-- Generic association-list lookup (Python dict indexing). -/
def lookupKey {β : Type} : List (String × β) → String → Option β
  | [], _ => Option.none
  | (k, v) :: rest, key => if k == key then some v else lookupKey rest key

/-- Effectful map over a list in `Except`, stopping at the first error
(the order in which the source's loops do their work). -/
def mapExc {β γ : Type} (f : β → Except PyErr γ) : List β → Except PyErr (List γ)
  | [] => .ok []
  | b :: rest =>
    match f b with
    | .error e => .error e
    | .ok c =>
      match mapExc f rest with
      | .error e => .error e
      | .ok cs => .ok (c :: cs)

/-- Check whether an expansion result is a Python list. -/
def isListResult : Except PyErr TValue → Bool
  | .ok (.list _) => true
  | _ => false

/-! ## Supporting lemmas -/

theorem containsStr_append (l1 l2 : List String) (g : String) :
    containsStr (l1 ++ l2) g = (containsStr l1 g || containsStr l2 g) := by
  induction l1 with
  | nil => simp [containsStr]
  | cons x xs ih => simp [containsStr, ih, Bool.or_assoc]

theorem containsStr_iff {l : List String} {g : String} : containsStr l g = true ↔ g ∈ l := by
  induction l with
  | nil => simp [containsStr]
  | cons x xs ih =>
    simp [containsStr, ih, List.mem_cons, Bool.or_eq_true, beq_iff_eq]
    exact or_congr_left eq_comm

theorem countStr_append (g : String) (l1 l2 : List String) :
    countStr g (l1 ++ l2) = countStr g l1 + countStr g l2 := by
  induction l1 with
  | nil => simp [countStr]
  | cons x xs ih => simp [countStr, ih]; omega

theorem countStr_eq_zero {l : List String} {g : String} (h : containsStr l g = false) :
    countStr g l = 0 := by
  induction l with
  | nil => rfl
  | cons x xs ih =>
    simp [containsStr, Bool.or_eq_false_iff] at h
    simp [countStr, h.1, ih h.2]

theorem dedupFirstGo_append_single (p : List String) (g : String) :
    ∀ seen, dedupFirstGo seen (p ++ [g]) =
      dedupFirstGo seen p ++
        (if containsStr seen g || containsStr p g then [] else [g]) := by
  induction p with
  | nil => intro seen; simp [dedupFirstGo, containsStr]
  | cons x xs ih =>
    intro seen
    simp only [List.cons_append, dedupFirstGo]
    by_cases hx : containsStr seen x = true
    · rw [if_pos hx, if_pos hx, show xs.append [g] = xs ++ [g] from rfl, ih seen]
      have hcond : (containsStr seen g || containsStr xs g)
          = (containsStr seen g || containsStr (x :: xs) g) := by
        by_cases hg : x = g
        · subst hg; rw [hx]; simp
        · simp [containsStr, beq_eq_false_iff_ne.mpr hg]
      rw [hcond]
    · replace hx : containsStr seen x = false := by simpa using hx
      rw [if_neg (by simp [hx]), if_neg (by simp [hx]),
        show xs.append [g] = xs ++ [g] from rfl, ih (seen ++ [x]),
        List.cons_append]
      have hcond : (containsStr (seen ++ [x]) g || containsStr xs g)
          = (containsStr seen g || containsStr (x :: xs) g) := by
        rw [containsStr_append]
        by_cases hg : x = g
        · subst hg; simp [containsStr, Bool.or_assoc]
        · simp [containsStr, beq_eq_false_iff_ne.mpr hg]
      rw [hcond]

theorem containsStr_dedupFirstGo (p : List String) (g : String) :
    ∀ seen, containsStr (dedupFirstGo seen p) g =
      (!containsStr seen g && containsStr p g) := by
  induction p with
  | nil => intro seen; simp [dedupFirstGo, containsStr]
  | cons x xs ih =>
    intro seen
    simp only [dedupFirstGo]
    by_cases hx : containsStr seen x = true
    · rw [if_pos hx, ih seen]
      by_cases hg : x = g
      · subst hg; rw [hx]; simp [containsStr, hx]
      · simp [containsStr, beq_eq_false_iff_ne.mpr hg]
    · replace hx : containsStr seen x = false := by simpa using hx
      rw [if_neg (by simp [hx])]
      show ((x == g) || containsStr (dedupFirstGo (seen ++ [x]) xs) g) = _
      rw [ih (seen ++ [x]), containsStr_append]
      by_cases hg : x = g
      · subst hg; simp [containsStr, hx]
      · simp only [containsStr, beq_eq_false_iff_ne.mpr hg, Bool.false_or,
          Bool.or_false]

theorem mem_dedupFirst {p : List String} {h : String} (hm : h ∈ dedupFirst p) :
    containsStr p h = true := by
  have hc : containsStr (dedupFirst p) h = true := containsStr_iff.mpr hm
  rw [dedupFirst, containsStr_dedupFirstGo] at hc
  simpa [containsStr] using hc

theorem insSorted_length (x : Int) (l : List Int) :
    (insSorted x l).length = l.length + 1 := by
  induction l with
  | nil => rfl
  | cons y ys ih =>
    by_cases h : x ≤ y <;> simp [insSorted, h, ih]

theorem sortInts_length (l : List Int) : (sortInts l).length = l.length := by
  induction l with
  | nil => rfl
  | cons x xs ih =>
    show (insSorted x (sortInts xs)).length = xs.length + 1
    rw [insSorted_length, ih]

theorem sortedLe_insSorted_cons {x y : Int} {ys : List Int}
    (hs : sortedLe (y :: ys) = true) (hxy : ¬ x ≤ y) :
    sortedLe (y :: insSorted x ys) = true := by
  induction ys generalizing y with
  | nil =>
    simp [insSorted, sortedLe]
    omega
  | cons z zs ih =>
    simp only [sortedLe, Bool.and_eq_true, decide_eq_true_eq] at hs
    by_cases hxz : x ≤ z
    · simp [insSorted, hxz, sortedLe, hs.2]
      omega
    · simp only [insSorted, hxz, if_false, sortedLe, Bool.and_eq_true,
        decide_eq_true_eq]
      exact ⟨hs.1, ih hs.2 hxz⟩

theorem sortedLe_insSorted {l : List Int} (hs : sortedLe l = true) (x : Int) :
    sortedLe (insSorted x l) = true := by
  cases l with
  | nil => rfl
  | cons y ys =>
    by_cases hxy : x ≤ y
    · simp [insSorted, hxy, sortedLe, hs]
    · simp only [insSorted, hxy, if_false]
      exact sortedLe_insSorted_cons hs hxy

theorem sortedLe_sortInts (l : List Int) : sortedLe (sortInts l) = true := by
  induction l with
  | nil => rfl
  | cons x xs ih => exact sortedLe_insSorted ih x

theorem expandEachWith_length {rec : FlatMap → String → Except PyErr TValue}
    {m : FlatMap} {pfx : String} :
    ∀ {l : List Int} {vs : List TValue},
      expandEachWith rec m pfx l = .ok vs → vs.length = l.length := by
  intro l
  induction l with
  | nil => intro vs h; cases h; rfl
  | cons i rest ih =>
    intro vs h
    simp only [expandEachWith] at h
    cases h1 : rec m (pfx ++ "." ++ toString i) with
    | error e => rw [h1] at h; cases h
    | ok v =>
      rw [h1] at h
      cases h2 : expandEachWith rec m pfx rest with
      | error e => rw [h2] at h; cases h
      | ok ws => rw [h2] at h; cases h; simp [ih h2]

theorem groupsShape_keys (p : List String) (inv : String) :
    (groupsShape p inv).map Prod.fst = dedupFirst p := by
  simp [groupsShape, List.map_map, Function.comp_def]

theorem addToGroup_shape (p : List String) (g inv : String) :
    addToGroup (groupsShape p inv) g inv = groupsShape (p ++ [g]) inv := by
  have hdd : dedupFirst (p ++ [g])
      = dedupFirst p ++ (if containsStr p g then [] else [g]) := by
    have h := dedupFirstGo_append_single p g []
    simpa [dedupFirst, containsStr] using h
  have hkeys : containsStr ((groupsShape p inv).map Prod.fst) g = containsStr p g := by
    rw [groupsShape_keys, dedupFirst, containsStr_dedupFirstGo]
    simp [containsStr]
  by_cases hg : containsStr p g = true
  · rw [addToGroup, hkeys, if_pos hg, groupsShape, groupsShape, hdd, if_pos hg,
      List.append_nil, List.map_map]
    apply List.map_congr_left
    intro h _
    simp only [Function.comp_apply]
    by_cases hhg : h = g
    · subst hhg
      rw [if_pos (by simp), countStr_append]
      simp [countStr, List.replicate_succ']
    · rw [if_neg (by simp [hhg]), countStr_append]
      simp [countStr, beq_eq_false_iff_ne.mpr (Ne.symm hhg)]
  · replace hg : containsStr p g = false := by simpa using hg
    rw [addToGroup, hkeys, if_neg (by simp [hg]), groupsShape, groupsShape, hdd,
      if_neg (by simp [hg]), List.map_append]
    congr 1
    · apply List.map_congr_left
      intro h hmem
      have hh : containsStr p h = true := mem_dedupFirst hmem
      have hne : h ≠ g := by
        intro he; subst he; rw [hh] at hg; cases hg
      rw [countStr_append]
      simp [countStr, beq_eq_false_iff_ne.mpr (Ne.symm hne)]
    · simp only [List.map_cons, List.map_nil]
      rw [countStr_append, countStr_eq_zero hg]
      simp [countStr]

theorem foldGroups_shape (ns : List String) (inv : String) :
    ∀ p, foldGroups ns inv (groupsShape p inv) = groupsShape (p ++ ns) inv := by
  induction ns with
  | nil => intro p; simp [foldGroups, groupsShape]
  | cons n rest ih =>
    intro p
    simp only [foldGroups, List.foldl_cons]
    have h1 : addToGroup (groupsShape p inv) n inv = groupsShape (p ++ [n]) inv :=
      addToGroup_shape p n inv
    rw [h1]
    have h2 := ih (p ++ [n])
    simp only [foldGroups] at h2
    rw [h2]
    simp

theorem strData_append (a b : String) : (a ++ b).data = a.data ++ b.data := by
  cases a; cases b; rfl

theorem strMk_append (a : String) (l : List Char) :
    a ++ String.mk l = String.mk (a.data ++ l) := by
  cases a; rfl

theorem strTake_pfx_seg (k pfx : String) (h : pyStartsWith k pfx = true) :
    strTake k (strLen pfx + strLen (segBeforeDot (strDrop k (strLen pfx))))
      = pfx ++ segBeforeDot (strDrop k (strLen pfx)) := by
  rw [pyStartsWith, List.isPrefixOf_iff_prefix] at h
  obtain ⟨t, ht⟩ := h
  have hdrop : strDrop k (strLen pfx) = String.mk t := by
    rw [strDrop, strLen, ← ht, List.drop_left]
  rw [hdrop]
  have htw : List.takeWhile (fun c => c != '.') t <+: t := List.takeWhile_prefix _
  have htake : List.take (List.takeWhile (fun c => c != '.') t).length t
      = List.takeWhile (fun c => c != '.') t := (List.prefix_iff_eq_take.mp htw).symm
  rw [segBeforeDot]
  rw [strTake, strLen, strLen, ← ht, List.take_append, htake, strMk_append]

theorem mapExc_fst {f : String → Except PyErr (String × TValue)}
    (hf : ∀ s p, f s = .ok p → p.1 = s) :
    ∀ {l : List String} {kvs : List (String × TValue)},
      mapExc f l = .ok kvs → kvs.map Prod.fst = l := by
  intro l
  induction l with
  | nil => intro kvs h; cases h; rfl
  | cons s rest ih =>
    intro kvs h
    simp only [mapExc] at h
    cases h1 : f s with
    | error e => rw [h1] at h; cases h
    | ok p =>
      rw [h1] at h
      cases h2 : mapExc f rest with
      | error e => rw [h2] at h; cases h
      | ok ps =>
        rw [h2] at h
        cases h
        simp [ih h2, hf s p h1]

theorem mapExc_cons {β γ : Type} (f : β → Except PyErr γ) (b : β) (l : List β) :
    mapExc f (b :: l) =
      (match f b with
       | .error e => .error e
       | .ok c =>
         match mapExc f l with
         | .error e => .error e
         | .ok cs => .ok (c :: cs)) := rfl

theorem match_append_assoc {γ : Type} (X : Except PyErr (List γ)) (p : γ)
    (acc : List γ) :
    (match X with
     | .ok np => Except.ok (acc ++ (p :: np))
     | .error e => Except.error e) =
    (match (match X with
            | .error e => Except.error e
            | .ok cs => Except.ok (p :: cs)) with
     | .ok np => Except.ok (acc ++ np)
     | .error e => (Except.error e : Except PyErr (List γ))) := by
  cases X <;> rfl

theorem expandDictGo_charact (rec : FlatMap → String → Except PyErr TValue)
    (m : FlatMap) (pfx : String) :
    ∀ (ks : List String) (acc : List (String × TValue)),
      expandDictGo rec m pfx ks acc =
        (match mapExc
            (fun s => (rec m (pfx ++ s)).map (fun v => (s, v)))
            (dictSegsGo pfx (acc.map Prod.fst) ks) with
         | .ok np => .ok (acc ++ np)
         | .error e => .error e) := by
  intro ks
  induction ks with
  | nil => intro acc; simp [expandDictGo, dictSegsGo, mapExc]
  | cons k rest ih =>
    intro acc
    cases hs : pyStartsWith k pfx with
    | false =>
      simp only [expandDictGo, dictSegsGo, hs, Bool.false_eq_true, if_false]
      exact ih acc
    | true =>
      simp only [expandDictGo, dictSegsGo, hs, if_true]
      cases hseen : containsStr (acc.map Prod.fst)
          (segBeforeDot (strDrop k (strLen pfx))) with
      | true =>
        simp only [hseen, if_true]
        exact ih acc
      | false =>
        simp only [hseen, Bool.false_eq_true, if_false]
        cases hpc : segBeforeDot (strDrop k (strLen pfx)) == "%" with
        | true =>
          simp only [hpc, if_true]
          exact ih acc
        | false =>
          simp only [hpc, Bool.false_eq_true, if_false]
          rw [strTake_pfx_seg k pfx hs]
          cases hv : rec m (pfx ++ segBeforeDot (strDrop k (strLen pfx))) with
          | error e =>
            simp only [mapExc_cons, hv, Except.map_error]
            rfl
          | ok v =>
            dsimp only
            rw [ih (acc ++ [(segBeforeDot (strDrop k (strLen pfx)), v)]),
              List.map_append, mapExc_cons]
            simp only [List.map_cons, List.map_nil, hv,
              List.append_assoc, List.singleton_append]
            cases hX : mapExc (fun s => Except.map (fun v => (s, v)) (rec m (pfx ++ s)))
                (dictSegsGo pfx
                  (List.map Prod.fst acc ++ [segBeforeDot (strDrop k (strLen pfx))])
                  rest) with
            | error e2 => rfl
            | ok np => rfl

theorem mergePartial_some {α : Type} :
    ∀ (hm hosts : List (String × α)) (n : String),
      firstRepeat (hosts.map Prod.fst) (hm.map Prod.fst) = some n →
      mergePartial hosts hm = .error (.duplicateName n) := by
  intro hm
  induction hm with
  | nil => intro hosts n h; cases h
  | cons p rest ih =>
    intro hosts n h
    obtain ⟨k, hv⟩ := p
    simp only [List.map_cons, firstRepeat] at h
    cases hc : containsStr (hosts.map Prod.fst) k with
    | true =>
      rw [hc, if_pos rfl] at h
      cases h
      simp [mergePartial, hc]
    | false =>
      rw [hc] at h
      simp only [Bool.false_eq_true, if_false] at h
      have h' : firstRepeat ((hosts ++ [(k, hv)]).map Prod.fst) (rest.map Prod.fst)
          = some n := by
        simpa [List.map_append] using h
      simp only [mergePartial, hc, Bool.false_eq_true, if_false]
      exact ih (hosts ++ [(k, hv)]) n h'

theorem mergePartial_none {α : Type} :
    ∀ (hm hosts : List (String × α)),
      firstRepeat (hosts.map Prod.fst) (hm.map Prod.fst) = Option.none →
      mergePartial hosts hm = .ok (hosts ++ hm) := by
  intro hm
  induction hm with
  | nil => intro hosts h; simp [mergePartial]
  | cons p rest ih =>
    intro hosts h
    obtain ⟨k, hv⟩ := p
    simp only [List.map_cons, firstRepeat] at h
    cases hc : containsStr (hosts.map Prod.fst) k with
    | true => rw [hc, if_pos rfl] at h; cases h
    | false =>
      rw [hc] at h
      simp only [Bool.false_eq_true, if_false] at h
      have h' : firstRepeat ((hosts ++ [(k, hv)]).map Prod.fst) (rest.map Prod.fst)
          = Option.none := by
        simpa [List.map_append] using h
      simp only [mergePartial, hc, Bool.false_eq_true, if_false]
      rw [ih (hosts ++ [(k, hv)]) h']
      simp

theorem firstRepeat_append :
    ∀ (a b seen : List String),
      firstRepeat seen (a ++ b) =
        (match firstRepeat seen a with
         | some n => some n
         | Option.none => firstRepeat (seen ++ a) b) := by
  intro a
  induction a with
  | nil => intro b seen; simp [firstRepeat]
  | cons k a' ih =>
    intro b seen
    simp only [List.cons_append, firstRepeat]
    cases hc : containsStr seen k with
    | true => simp
    | false =>
      simp only [Bool.false_eq_true, if_false, List.append_eq]
      rw [ih b (seen ++ [k]), List.append_cons seen k a']

theorem merge_from_error {α : Type} :
    ∀ (l : List (List (String × α))) (hosts : List (String × α)) (n : String),
      firstRepeat (hosts.map Prod.fst)
          ((l.map (fun hm => hm.map Prod.fst)).flatten) = some n →
      merge_hosts_from hosts l = .error (.duplicateName n) := by
  intro l
  induction l with
  | nil => intro hosts n h; cases h
  | cons hm rest ih =>
    intro hosts n h
    rw [List.map_cons, List.flatten_cons, firstRepeat_append] at h
    cases h1 : firstRepeat (hosts.map Prod.fst) (hm.map Prod.fst) with
    | some n' =>
      rw [h1] at h
      cases h
      simp only [merge_hosts_from, mergePartial_some hm hosts n h1]
    | none =>
      rw [h1] at h
      simp only [merge_hosts_from, mergePartial_none hm hosts h1]
      apply ih
      simpa [List.map_append] using h

theorem firstRepeat_isSome_of_not_nodup :
    ∀ (ks seen : List String), seen.Nodup → ¬ (seen ++ ks).Nodup →
      (firstRepeat seen ks).isSome = true := by
  intro ks
  induction ks with
  | nil => intro seen hs hn; simp at hn; exact absurd hs hn
  | cons k rest ih =>
    intro seen hs hn
    cases hc : containsStr seen k with
    | true => simp [firstRepeat, hc]
    | false =>
      have hkseen : k ∉ seen := by
        intro hmem
        rw [← containsStr_iff] at hmem
        rw [hmem] at hc
        cases hc
      simp only [firstRepeat, hc, Bool.false_eq_true, if_false]
      apply ih (seen ++ [k])
      · rw [List.nodup_append]
        refine ⟨hs, List.nodup_singleton k, ?_⟩
        intro a ha hak
        rw [List.mem_singleton] at hak
        exact hkseen (hak ▸ ha)
      · intro hcontra
        apply hn
        rw [List.append_cons]
        exact hcontra

theorem countStr_pos_of_mem {n : String} :
    ∀ {l : List String}, n ∈ l → 1 ≤ countStr n l := by
  intro l
  induction l with
  | nil => intro h; cases h
  | cons x xs ih =>
    intro h
    rcases List.mem_cons.mp h with h1 | h1
    · subst h1; simp [countStr]
    · have := ih h1
      simp only [countStr]
      omega

theorem firstRepeat_count :
    ∀ (ks seen : List String) (n : String), firstRepeat seen ks = some n →
      (containsStr seen n = true ∧ n ∈ ks) ∨ 2 ≤ countStr n ks := by
  intro ks
  induction ks with
  | nil => intro seen n h; cases h
  | cons k rest ih =>
    intro seen n h
    simp only [firstRepeat] at h
    cases hc : containsStr seen k with
    | true =>
      rw [hc, if_pos rfl] at h
      cases h
      exact Or.inl ⟨hc, List.mem_cons_self k rest⟩

    | false =>
      rw [hc] at h
      simp only [Bool.false_eq_true, if_false] at h
      rcases ih (seen ++ [k]) n h with ⟨h1, h2⟩ | h1
      · rw [containsStr_append] at h1
        cases hsn : containsStr seen n with
        | true => exact Or.inl ⟨rfl, List.mem_cons_of_mem k h2⟩
        | false =>
          have hkn : k = n := by
            rw [hsn] at h1
            simpa [containsStr, beq_iff_eq] using h1
          subst hkn
          have := countStr_pos_of_mem h2
          apply Or.inr
          simp only [countStr, beq_self_eq_true, if_true]
          omega
      · apply Or.inr
        simp only [countStr]
        omega

theorem strMk_data (s : String) : String.mk s.data = s := by cases s; rfl

theorem splitFirstEqGo_charact :
    ∀ (cs acc : List Char),
      splitFirstEqGo cs acc =
        (String.mk (acc.reverse ++ cs.takeWhile (fun c => c != '=')),
         if cs.contains '=' then
           some (String.mk (cs.dropWhile (fun c => c != '=')).tail)
         else Option.none) := by
  intro cs
  induction cs with
  | nil => intro acc; simp [splitFirstEqGo, List.contains_nil]
  | cons c rest ih =>
    intro acc
    by_cases hc : c = '='
    · subst hc
      simp [splitFirstEqGo, List.takeWhile_cons, List.dropWhile_cons,
        List.contains_cons]
    · have hcb : (c == '=') = false := beq_eq_false_iff_ne.mpr hc
      have hne : (c != '=') = true := by simp [bne, hcb]
      simp only [splitFirstEqGo, hcb, Bool.false_eq_true, if_false, ih (c :: acc),
        List.takeWhile_cons, List.dropWhile_cons, hne, if_true,
        List.reverse_cons, List.append_assoc, List.singleton_append,
        List.contains_cons]
      have heqc : ('=' == c) = false := beq_eq_false_iff_ne.mpr (Ne.symm hc)
      rw [heqc, Bool.false_or]

theorem takeWhile_eq_self_of_no_eq :
    ∀ (cs : List Char), cs.contains '=' = false →
      cs.takeWhile (fun c => c != '=') = cs := by
  intro cs
  induction cs with
  | nil => intro _; rfl
  | cons c rest ih =>
    intro h
    rw [List.contains_cons, Bool.or_eq_false_iff] at h
    have hcb : (c != '=') = true := by
      simp only [bne]
      have : (c == '=') = false := by
        cases hcc : (c == '=') with
        | false => rfl
        | true =>
          have : c = '=' := eq_of_beq hcc
          subst this
          simp at h
      rw [this]
      rfl
    rw [List.takeWhile_cons, hcb, if_pos rfl, ih h.2]

theorem pyStartsWith_data_nil {v : String} (h : v.data = []) (p : String)
    (hp : p.data ≠ []) : pyStartsWith v p = false := by
  rw [pyStartsWith, h]
  cases hp2 : p.data with
  | nil => exact absurd hp2 hp
  | cons c cs => rfl

theorem pyStartsWith_singleton (v : String) (c : Char) (p : String)
    (hp : p.data = [c]) : pyStartsWith v p = true ↔ v.data.head? = some c := by
  rw [pyStartsWith, hp]
  cases hv : v.data with
  | nil => simp [List.isPrefixOf]
  | cons d rest =>
    have h1 : List.isPrefixOf [c] (d :: rest) = (c == d) := by
      show ((c == d) && List.isPrefixOf ([] : List Char) rest) = (c == d)
      rw [show List.isPrefixOf ([] : List Char) rest = true by cases rest <;> rfl,
        Bool.and_true]
    rw [h1, List.head?_cons]
    constructor
    · intro h
      simp [eq_of_beq h]
    · intro h
      exact beq_iff_eq.mpr (Option.some.inj h).symm

/-! ## Claim theorems -/

theorem flatmap_expandF_succ (fuel : Nat) (m : FlatMap) (key : String) :
    flatmap_expandF (fuel + 1) m key =
      (match lookupStr m key with
       | some v =>
         .ok (if v == "true" then .bool true else if v == "false" then .bool false
              else .str v)
       | Option.none =>
         if containsStr (keysList m) (key ++ ".#") then
           flatmap_expand_array (fun m' k' => flatmap_expandF fuel m' k') m key
         else if (keysList m).any (fun k => pyStartsWith k (key ++ ".")) then
           flatmap_expand_dict (fun m' k' => flatmap_expandF fuel m' k') m (key ++ ".")
         else .ok .null) := rfl

/-- C3: classification renders the filter template and then: rendered text
`"False"` means the record is skipped with an empty partial result (the
accumulated state is returned unchanged), `"True"` means classification
proceeds with the record, and any other rendered text aborts the run with
a fatal configuration error carrying the offending text — never a silent
skip. -/
theorem filter_trichotomy (r : RenderedItem) (st : InvState) :
    processResource r st =
      (if r.filter_value = "False" then .ok st
       else if r.filter_value = "True" then processIncluded r st
       else .error (.filterContract r.filter_value)) := by
  unfold processResource
  by_cases h1 : r.filter_value = "False"
  · simp [h1]
  · by_cases h2 : r.filter_value = "True" <;> simp [h1, h2]

/-- C4: when the key exists verbatim in the flat attribute map, `expand`
returns the boolean `true` for the stored string `"true"`, the boolean
`false` for `"false"`, and the stored string unchanged otherwise.  The only
hypothesis is that the lookup succeeds, so this direct-scalar case applies
whatever other keys (`key + ".#"`, `key + "."`-prefixed) the map contains:
it takes precedence over the list and map cases. -/
theorem flatmap_expand_scalar (m : FlatMap) (key v : String)
    (h : lookupStr m key = some v) :
    flatmap_expand m key =
      .ok (if v = "true" then .bool true else if v = "false" then .bool false
           else .str v) := by
  rw [flatmap_expand, show maxKeyLen m + 2 = (maxKeyLen m + 1) + 1 from rfl,
    flatmap_expandF_succ, h]
  by_cases h1 : v = "true"
  · simp [h1]
  · by_cases h2 : v = "false" <;> simp [h1, h2]

/-- Witness for C4 at a map that also contains `k.#` and `k.0`, showing the
scalar case wins over the list case. -/
theorem flatmap_expand_scalar_witness :
    flatmap_expand [("k", "true"), ("k.#", "1"), ("k.0", "z")] "k"
      = .ok (TValue.bool true) := by
  have h := flatmap_expand_scalar [("k", "true"), ("k.#", "1"), ("k.0", "z")]
    "k" "true" rfl
  simpa using h

/-- C9: `expand` is total only when the discovered first path-segments
parse as integers: on the map `{p.#: "2", p.foo: "x"}` with key `p`, the
conversion `int("foo")` raises an uncaught `ValueError` instead of
returning a value or absent. -/
theorem flatmap_expand_nonint_index_error :
    flatmap_expand [("p.#", "2"), ("p.foo", "x")] "p" = .error PyErr.valueError
      ∧ pyInt "foo" = Option.none := ⟨rfl, rfl⟩

/-- C8 (amended): record enrichment leaves the raw entry's `attributes`
mapping untouched, but it is not side-effect-free — because `Resource`
shallow-copies the entry, the constructed object and the raw entry share
the nested `primary` dict, and the assignment of `expanded_attributes`
is visible through the raw entry.  The theorem pins down the exact
post-call state of both objects. -/
theorem resource_init_frame (rname : String) (entry : RawEntry)
    (exp : List (String × TValue))
    (h : expandAll entry.primary.attributes = .ok exp) :
    Resource_init rname entry =
      .ok (⟨rname, ⟨entry.primary.attributes, some exp⟩⟩,
           ⟨⟨entry.primary.attributes, some exp⟩⟩) := by
  unfold Resource_init
  rw [h]

/-- Witness for C8's amended theorem on the single-attribute entry
`{primary: {attributes: {id: "i-1"}}}`. -/
theorem resource_init_frame_witness :
    Resource_init "web" ⟨⟨[("id", "i-1")], Option.none⟩⟩ =
      .ok (⟨"web", ⟨[("id", "i-1")], some [("id", TValue.str "i-1")]⟩⟩,
           ⟨⟨[("id", "i-1")], some [("id", TValue.str "i-1")]⟩⟩) :=
  resource_init_frame "web" ⟨⟨[("id", "i-1")], Option.none⟩⟩
    [("id", TValue.str "i-1")] rfl

/-- Counterexample to C8 as stated: enriching the raw entry
`{primary: {attributes: {id: "i-1"}}}` leaves the raw entry with an
`expanded_attributes` key that it did not have before, so the raw entry's
nested primary structure is changed. -/
theorem resource_init_mutates_entry_cex :
    (Resource_init "web" ⟨⟨[("id", "i-1")], Option.none⟩⟩).map
        (fun r => r.2.primary.expanded_attributes.isSome) = .ok true
      ∧ (⟨⟨[("id", "i-1")], Option.none⟩⟩ : RawEntry).primary.expanded_attributes.isSome
          = false := ⟨rfl, rfl⟩

theorem lookupKey_map_update {β : Type} (v : β) :
    ∀ (d : List (String × β)) (k : String),
      containsStr (d.map Prod.fst) k = true →
      lookupKey (d.map (fun q => if q.1 == k then (q.1, v) else q)) k = some v := by
  intro d
  induction d with
  | nil => intro k h; cases h
  | cons q rest ih =>
    obtain ⟨a, b⟩ := q
    intro k h
    rw [List.map_cons]
    cases hq : (a == k) with
    | true =>
      rw [show (if (true = true) then ((a, b).1, v) else (a, b)) = ((a, b).1, v)
        from if_pos rfl]
      simp only [lookupKey]
      rw [if_pos hq]
    | false =>
      rw [show (if (false = true) then ((a, b).1, v) else (a, b)) = (a, b)
        from by simp]
      simp only [lookupKey]
      rw [if_neg (by simp [hq])]
      apply ih
      simpa [containsStr, hq] using h

/-- C10: `list_groups` mutates the accumulated groups mapping in place
(the post-call state of `tf_state_data['groups']` is exactly the returned
output), writes the reserved `_meta` entry `{hostvars: hosts}` directly
into it (appending it when absent, and adding no new entry when a group
named `_meta` exists), and when a record's rendered group name was
`_meta`, that group's hosts are silently replaced by the meta structure
in the list-mode output. -/
theorem list_groups_meta_overwrite {α : Type} (st : TfStateData α) :
    ((list_groups st).2.groups = (list_groups st).1)
      ∧ ((list_groups st).1.map Prod.fst =
          if containsStr (st.groups.map Prod.fst) "_meta" then st.groups.map Prod.fst
          else st.groups.map Prod.fst ++ ["_meta"])
      ∧ (containsStr (st.groups.map Prod.fst) "_meta" = true →
          lookupKey (list_groups st).1 "_meta" = some (.meta st.hosts)) := by
  refine ⟨rfl, ?_, ?_⟩
  · unfold list_groups dictSet
    cases hc : containsStr (st.groups.map Prod.fst) "_meta" with
    | true =>
      simp only [hc, if_true, List.map_map]
      apply List.map_congr_left
      intro q _
      by_cases hq : q.1 = "_meta" <;> simp [hq]
    | false =>
      simp only [hc, Bool.false_eq_true, if_false, List.map_append]
      rfl
  · intro hc
    unfold list_groups dictSet
    simp only [hc, if_true]
    exact lookupKey_map_update _ st.groups "_meta" hc

/-- C2: for every run whose partial host dicts register some inventory
name twice — resource or output alike — `merge_hosts` aborts with a
diagnostic carrying the duplicated name (the first name to repeat an
earlier registration), and no merged host mapping is produced.  The
second conjunct checks that the reported name indeed occurs at least
twice among the registered names. -/
theorem merge_hosts_duplicate_fatal {α : Type} (l : List (List (String × α)))
    (hdup : ¬ ((l.map (fun hm => hm.map Prod.fst)).flatten).Nodup) :
    merge_hosts l =
        .error (.duplicateName
          ((firstRepeat [] ((l.map (fun hm => hm.map Prod.fst)).flatten)).getD ""))
      ∧ 2 ≤ countStr
          ((firstRepeat [] ((l.map (fun hm => hm.map Prod.fst)).flatten)).getD "")
          ((l.map (fun hm => hm.map Prod.fst)).flatten) := by
  have hsome : (firstRepeat [] ((l.map (fun hm => hm.map Prod.fst)).flatten)).isSome
      = true :=
    firstRepeat_isSome_of_not_nodup _ [] List.nodup_nil (by simpa using hdup)
  obtain ⟨nm, hnm⟩ := Option.isSome_iff_exists.mp hsome
  rw [hnm, Option.getD_some]
  constructor
  · exact merge_from_error l [] nm hnm
  · rcases firstRepeat_count _ [] nm hnm with ⟨hf, _⟩ | hcount
    · cases hf
    · exact hcount

/-- Witness for C2: two partials both registering `"web1"` abort the
merge naming `"web1"`. -/
theorem merge_hosts_duplicate_fatal_witness :
    merge_hosts [[("web1", "a")], [("web1", "b")]]
        = .error (.duplicateName "web1")
      ∧ 2 ≤ countStr "web1" ["web1", "web1"] :=
  merge_hosts_duplicate_fatal [[("web1", "a")], [("web1", "b")]] (by decide)

/-- Counterexample to C7 as stated: the rendered groups text `"all\n"`
(a single group name followed by a newline) does not have its empty item
discarded — the inventory name is also appended to a group with the empty
name, so the result differs from the claimed `[("all", ["web1"])]`. -/
theorem groups_split_claim_cex :
    foldGroups (splitWsNl "all\n") "web1" []
        = [("all", ["web1"]), ("", ["web1"])]
      ∧ foldGroups (splitWsNl "all\n") "web1" [] ≠ [("all", ["web1"])] :=
  ⟨rfl, by decide⟩

/-- C7 (amended): the rendered groups text is split on maximal whitespace
runs containing at least one newline (the whitespace around the newline is
consumed, but items are not otherwise trimmed and empty items are kept,
matching `re.split('\s*\n\s*', ...)`); the record's inventory name is
then appended once per occurrence to each named group, groups being
created at first appearance, so the final mapping lists the distinct
names in order of first appearance, each holding one copy of the
inventory name per occurrence. -/
theorem groups_assignment_shape (rendered inv : String) :
    foldGroups (splitWsNl rendered) inv [] = groupsShape (splitWsNl rendered) inv := by
  have h0 : groupsShape ([] : List String) inv = [] := rfl
  rw [← h0, foldGroups_shape, List.nil_append]

/-- Witness for C10 on a state whose only group is named `_meta`: the
output's single entry is the meta structure, the rendered group's hosts
are gone. -/
theorem list_groups_meta_overwrite_witness :
    ((list_groups (⟨[("_meta", GroupEntry.group ["w"])], [("w", "v")]⟩ :
          TfStateData String)).2.groups
        = (list_groups (⟨[("_meta", GroupEntry.group ["w"])], [("w", "v")]⟩ :
          TfStateData String)).1)
      ∧ (list_groups (⟨[("_meta", GroupEntry.group ["w"])], [("w", "v")]⟩ :
          TfStateData String)).1.map Prod.fst = ["_meta"]
      ∧ lookupKey (list_groups (⟨[("_meta", GroupEntry.group ["w"])], [("w", "v")]⟩ :
          TfStateData String)).1 "_meta"
          = some (GroupEntry.meta [("w", "v")]) :=
  ⟨(list_groups_meta_overwrite _).1,
   (list_groups_meta_overwrite _).2.1,
   (list_groups_meta_overwrite _).2.2 rfl⟩

/-- C1 (amended): when the key is absent verbatim, `key + ".#"` is
present, the declared count parses as an integer, and every distinct
first path-segment after `key + "."` (other than `"#"`) parses as an
integer, `expand` returns an ordered sequence whose length equals the
number of distinct integer indices discovered — not the declared count
`n`, which is ignored — sorted ascending numerically, with each element
the recursive expansion of `key + "." + i`. -/
theorem flatmap_expand_array_spec (fuel : Nat) (m : FlatMap) (key numStr : String)
    (n : Int) (idxs : List Int) (elems : List TValue)
    (h1 : lookupStr m key = Option.none)
    (h2 : containsStr (keysList m) (key ++ ".#") = true)
    (h3 : lookupStr m (key ++ ".#") = some numStr)
    (h4 : pyInt numStr = some n)
    (h5 : collectIdxGo key (keysList m) [] = .ok idxs)
    (h6 : expandEachWith (fun m' k' => flatmap_expandF fuel m' k') m key
            (sortInts idxs) = .ok elems) :
    flatmap_expandF (fuel + 1) m key = .ok (.list elems)
      ∧ elems.length = idxs.length
      ∧ sortedLe (sortInts idxs) = true := by
  refine ⟨?_, ?_, sortedLe_sortInts idxs⟩
  · rw [flatmap_expandF_succ, h1]
    simp only [h2, if_true]
    rw [flatmap_expand_array, h3]
    dsimp only
    rw [h4]
    dsimp only
    rw [h5]
    dsimp only
    rw [h6]
  · rw [expandEachWith_length h6, sortInts_length]

/-- Witness for C1's amended theorem on the spec's own array example
`{p.#: "2", p.0: "a", p.1: "b"}`. -/
theorem flatmap_expand_array_spec_witness :
    flatmap_expandF (2 + 1) [("p.#", "2"), ("p.0", "a"), ("p.1", "b")] "p"
        = .ok (TValue.list [TValue.str "a", TValue.str "b"])
      ∧ ([TValue.str "a", TValue.str "b"] : List TValue).length
          = ([0, 1] : List Int).length
      ∧ sortedLe (sortInts [0, 1]) = true :=
  flatmap_expand_array_spec 2 [("p.#", "2"), ("p.0", "a"), ("p.1", "b")] "p"
    "2" 2 [0, 1] [TValue.str "a", TValue.str "b"] rfl rfl rfl rfl rfl rfl

/-- Counterexample to C1 as stated: in the map `{p: "v", p.#: "0"}` the
key `p + ".#"` is present, yet `expand(map, "p")` returns the scalar
`"v"`, not an ordered sequence — the direct-scalar case takes
precedence. -/
theorem flatmap_expand_array_claim_cex :
    containsStr (keysList [("p", "v"), ("p.#", "0")]) ("p" ++ ".#") = true
      ∧ isListResult (flatmap_expand [("p", "v"), ("p.#", "0")] "p") = false
      ∧ flatmap_expand [("p", "v"), ("p.#", "0")] "p" = .ok (TValue.str "v") :=
  ⟨rfl, rfl, rfl⟩

theorem except_map_ok_fst {s : String} {x : Except PyErr TValue}
    {p : String × TValue}
    (h : Except.map (fun v => (s, v)) x = .ok p) : p.1 = s := by
  cases x with
  | error e => simp [Except.map] at h
  | ok v =>
    simp only [Except.map] at h
    cases h
    rfl

/-- C5: when the key is absent verbatim, `key + ".#"` is absent, and some
map key begins with `key + "."`, `expand` returns a mapping whose keys
are exactly the distinct next path-segments after that prefix excluding
the reserved `"%"` (in first-occurrence order), each sub-key expanded
exactly once by recursively expanding `key + "." + sub_key` (the `mapExc`
hypothesis states exactly that); and when none of the three cases
matches, `expand` returns Python `None` (absent). -/
theorem flatmap_expand_dict_spec (fuel : Nat) (m : FlatMap) (key : String) :
    (∀ kvs : List (String × TValue),
      lookupStr m key = Option.none →
      containsStr (keysList m) (key ++ ".#") = false →
      (keysList m).any (fun k => pyStartsWith k (key ++ ".")) = true →
      mapExc (fun s => (flatmap_expandF fuel m ((key ++ ".") ++ s)).map
          (fun v => (s, v))) (dictSegs m (key ++ ".")) = .ok kvs →
      flatmap_expandF (fuel + 1) m key = .ok (.map kvs)
        ∧ kvs.map Prod.fst = dictSegs m (key ++ "."))
    ∧ (lookupStr m key = Option.none →
      containsStr (keysList m) (key ++ ".#") = false →
      (keysList m).any (fun k => pyStartsWith k (key ++ ".")) = false →
      flatmap_expandF (fuel + 1) m key = .ok TValue.null) := by
  constructor
  · intro kvs h1 h2 h3 h4
    constructor
    · rw [flatmap_expandF_succ, h1]
      simp only [h2, Bool.false_eq_true, if_false, h3, if_true]
      rw [flatmap_expand_dict, expandDictGo_charact]
      rw [show dictSegsGo (key ++ ".") (List.map Prod.fst ([] : List (String × TValue)))
            (keysList m) = dictSegs m (key ++ ".") from rfl, h4]
      rfl
    · exact mapExc_fst (fun s p hp => except_map_ok_fst hp) h4
  · intro h1 h2 h3
    rw [flatmap_expandF_succ, h1]
    dsimp only
    simp only [h2, Bool.false_eq_true, if_false, h3]

/-- Witness for C5 on the spec's own map example
`{p.%: "2", p.x: "1", p.y: "2"}`, and the absent case at key `q`. -/
theorem flatmap_expand_dict_spec_witness :
    (flatmap_expandF (1 + 1) [("p.%", "2"), ("p.x", "1"), ("p.y", "2")] "p"
        = .ok (TValue.map [("x", TValue.str "1"), ("y", TValue.str "2")])
      ∧ ([("x", TValue.str "1"), ("y", TValue.str "2")]
          : List (String × TValue)).map Prod.fst
          = dictSegs [("p.%", "2"), ("p.x", "1"), ("p.y", "2")] ("p" ++ "."))
      ∧ flatmap_expandF (1 + 1) [("p.%", "2"), ("p.x", "1"), ("p.y", "2")] "q"
        = .ok TValue.null :=
  ⟨(flatmap_expand_dict_spec 1 [("p.%", "2"), ("p.x", "1"), ("p.y", "2")] "p").1
      [("x", TValue.str "1"), ("y", TValue.str "2")] rfl rfl rfl rfl,
   (flatmap_expand_dict_spec 1 [("p.%", "2"), ("p.x", "1"), ("p.y", "2")] "q").2
      rfl rfl rfl⟩

/-- C6: the per-line host-vars parsing of the package module coincides,
for every line, with the specification's wording: split on the first
`"="` only, trimmed left side is the key; a line with no `"="` yields a
warning (not fatal) and the empty string as value; otherwise the trimmed
right side is handed to the structured-literal parser exactly when it
begins with `"["` or a left brace, and is stored verbatim as a string in
all other cases. -/
theorem host_var_line_refines_spec (line : String) :
    processHostVarLine line = hostVarLineSpec line := by
  unfold processHostVarLine hostVarLineSpec
  by_cases h0 : (pyStrip line == "") = true
  · simp only [h0, if_true]
  · have h0f : (pyStrip line == "") = false := by simpa using h0
    simp only [h0f, Bool.false_eq_true, if_false]
    rw [splitFirstEq, splitFirstEqGo_charact, List.reverse_nil, List.nil_append]
    cases hceq : (pyStrip line).data.contains '=' with
    | false =>
      simp only [hceq, Bool.false_eq_true, if_false]
      rw [takeWhile_eq_self_of_no_eq _ hceq, strMk_data]
    | true =>
      simp only [hceq, if_true]
      by_cases hlb : (pyStrip (String.mk
          (((pyStrip line).data.dropWhile (fun c => c != '=')).tail))).data.head?
          = some '['
      · rw [if_pos ((pyStartsWith_singleton _ '[' "[" rfl).mpr hlb),
          if_pos (Or.inl hlb)]
      · rw [if_neg (fun hh => hlb ((pyStartsWith_singleton _ '[' "[" rfl).mp hh))]
        by_cases hcb : (pyStrip (String.mk
            (((pyStrip line).data.dropWhile (fun c => c != '=')).tail))).data.head?
            = some '\x7b'
        · rw [if_pos ((pyStartsWith_singleton _ '\x7b' "\x7b" rfl).mpr hcb),
            if_pos (Or.inr hcb)]
        · rw [if_neg (fun hh => hcb ((pyStartsWith_singleton _ '\x7b' "\x7b" rfl).mp hh)),
            if_neg (fun hh => Or.elim hh hlb hcb)]
